import Mathlib

/-!
Verification of `install.py` ("Install a Conan package with original
dependencies"). The Python functions are shallowly embedded as Lean
functions: ini documents are association lists of sections, each section an
association list of raw `key = value` entries in document order; Python
`dict` insertion/update is modelled by `upsert`; the external `conan`
subprocess calls are modelled by recording the command argument vectors
that would be executed, with the contents of the files the commands
produce (`conan_search.json`, `conaninfo.txt`) supplied as inputs.
-/

namespace ConanInstall

/-- A raw ini section: section name together with its `key = value` entries
in document order (as they appear textually, before parsing). -/
abbrev RawSection := String × List (String × String)

/-- A raw ini document: its sections in document order. -/
abbrev RawDoc := List RawSection

/-- ASCII lower-casing of one character, modelling what Python's
`str.lower` does on the ASCII keys appearing in Conan documents
(`configparser.ConfigParser`'s default `optionxform`). -/
def pyLowerChar (c : Char) : Char :=
  if 65 ≤ c.toNat ∧ c.toNat ≤ 90 then Char.ofNat (c.toNat + 32) else c

/-- `str.lower` on a whole string (character-wise). -/
def pyLower (s : String) : String :=
  String.mk (s.data.map pyLowerChar)

/-- Python `str.endswith`, via the underlying character lists. -/
def pyEndsWith (s suf : String) : Bool :=
  suf.data.isSuffixOf s.data

/-- ASCII whitespace characters, modelling what `re.search(r'\s', val)`
matches on the ASCII values appearing in Conan profiles. -/
def isPyWs (c : Char) : Bool :=
  c = ' ' || c = '\t' || c = '\n' || c = '\r' || c = '\x0b' || c = '\x0c'

/-- Whether `re.search(r'\s', val)` finds a match in `val`. -/
def pyContainsWs (v : String) : Bool :=
  v.data.any isPyWs

/-- The value registered for a profile key: double-quoted when the value
contains whitespace (lines 38-39 of `install.py`), otherwise unchanged. -/
def quoteIfWs (v : String) : String :=
  if pyContainsWs v then "\"" ++ v ++ "\"" else v

/-- Python `s.split(sep)` on the character list: split at every occurrence
of `sep`, keeping empty chunks, `[[]]` for the empty list. -/
def splitCharList (sep : Char) : List Char → List (List Char)
  | [] => [[]]
  | c :: rest =>
    let r := splitCharList sep rest
    if c = sep then [] :: r
    else
      match r with
      | chunk :: rs => (c :: chunk) :: rs
      | [] => [[c]]

/-- Python `s.split(sep)` for a one-character separator. -/
def pySplit (sep : Char) (s : String) : List String :=
  (splitCharList sep s.data).map String.mk

/-- Python `key.split(':')[0]`: the prefix of `key` before the first colon
(the whole string when there is no colon). -/
def beforeFirstColon (s : String) : String :=
  String.mk (s.data.takeWhile (fun c => c ≠ ':'))

/-- Python `dict` assignment `m[k] = v` on an insertion-ordered association
list with unique keys: an existing key keeps its position and gets the new
value, a new key is appended at the end. -/
def upsert : List (String × String) → String → String → List (String × String)
  | [], k, v => [(k, v)]
  | kv :: rest, k, v =>
    if kv.1 = k then (k, v) :: rest else kv :: upsert rest k v

/-- Apply a list of `(key, value)` assignments to an accumulating mapping,
in order (each one a Python `dict` update). -/
def applyAll (qs : List (String × String)) (ps : List (String × String)) :
    List (String × String) :=
  ps.foldl (fun m kv => upsert m kv.1 kv.2) qs

/-- Association-list lookup (first entry with the given key). -/
def lookupA (l : List (String × String)) (k : String) : Option String :=
  match l with
  | [] => none
  | kv :: rest => if kv.1 = k then some kv.2 else lookupA rest k

/-- Parse one raw section body the way `configparser` stores it: keys are
passed through `optionxform` (lower-cased) and assigned into an
insertion-ordered mapping, a duplicate key keeping its first position with
the later value. -/
def parseEntriesInto (m : List (String × String))
    (sec : List (String × String)) : List (String × String) :=
  sec.foldl (fun m kv => upsert m (pyLower kv.1) kv.2) m

/-- Merge one raw section into the accumulated parsed document, the way
`configparser` (with `strict=False`) does: a repeated section name merges
its entries into the existing section in place, a new name is appended. -/
def upsertSection : RawDoc → String → List (String × String) → RawDoc
  | [], name, entries => [(name, parseEntriesInto [] entries)]
  | s :: rest, name, entries =>
    if s.1 = name then (s.1, parseEntriesInto s.2 entries) :: rest
    else s :: upsertSection rest name entries

/-- The state of `get_conan_ini_parser()` after `read`: sections in
first-seen order, option keys lower-cased, duplicates merged last-wins. -/
def parseDoc (doc : RawDoc) : RawDoc :=
  doc.foldl (fun acc s => upsertSection acc s.1 s.2) []

/-- The `(key, value)` pairs the profile loop of
`get_full_query_from_profile` (lines 30-40) registers, in loop order: for
each parsed section named `settings` or `options`, each key not ending in
`_build`, paired with its whitespace-quoted value. -/
def profileContribPairs (doc : RawDoc) : List (String × String) :=
  (parseDoc doc).flatMap (fun s =>
    if s.1 = "settings" ∨ s.1 = "options" then
      (s.2.filter (fun kv => !(pyEndsWith kv.1 "_build"))).map
        (fun kv => (kv.1, quoteIfWs kv.2))
    else [])

/-- The `queries` dict after the profile loop of
`get_full_query_from_profile` (the nested `for` with `continue` is the
fold of `upsert` over the flattened contributed pairs). -/
def profileQueries (doc : RawDoc) : List (String × String) :=
  applyAll [] (profileContribPairs doc)

/-- Error message prefix for a malformed `-o` override (line 46). -/
def optErrMsg : String :=
  "Could not parse conan option (expected format is option=value): "

/-- Error message prefix for a malformed `-s` override (line 54). -/
def settErrMsg : String :=
  "Could not parse conan setting (expected format is option=value): "

/-- One override loop of `get_full_query_from_profile` (lines 43-48 and
51-56): split each override on `=`, fail unless exactly two parts, else
assign `key -> value` into the mapping. -/
def applyOverrides (msg : String) (qs : List (String × String)) :
    List String → Except String (List (String × String))
  | [] => .ok qs
  | s :: rest =>
    match pySplit '=' s with
    | [k, v] => applyOverrides msg (upsert qs k v) rest
    | _ => .error (msg ++ s)

/-- The `queries` mapping of `get_full_query_from_profile` just before the
final join (line 58): profile contribution, then `-o` overrides, then `-s`
overrides. The profile path is an `Option`: `configparser.read` silently
skips a missing or unreadable file, leaving the parser empty, so a missing
profile is the empty document. -/
def mergedQueries (profile : Option RawDoc) (opts setts : List String) :
    Except String (List (String × String)) :=
  match applyOverrides optErrMsg (profileQueries (profile.getD [])) opts with
  | .error e => .error e
  | .ok qs => applyOverrides settErrMsg qs setts

/-- Python `sep.join(parts)`: parts joined with the separator between
consecutive elements, the empty string for no parts. -/
def pyJoin (sep : String) : List String → String
  | [] => ""
  | [x] => x
  | x :: y :: xs => x ++ sep ++ pyJoin sep (y :: xs)

/-- Line 58: `' AND '.join([key + '=' + val for key, val in queries.items()])`. -/
def joinQueries (qs : List (String × String)) : String :=
  pyJoin " AND " (qs.map (fun kv => kv.1 ++ "=" ++ kv.2))

/-- `get_full_query_from_profile(conan_profile_path, conan_options,
conan_settings)` (lines 20-59). -/
def getFullQueryFromProfile (profile : Option RawDoc)
    (opts setts : List String) : Except String String :=
  match mergedQueries profile opts setts with
  | .error e => .error e
  | .ok qs => .ok (joinQueries qs)

/-- One entry of the `packages` array of the search result. -/
structure ConanPackage where
  id : String
deriving DecidableEq, Repr

/-- One entry of the `items` array of the search result. -/
structure SearchItem where
  packages : List ConanPackage
deriving DecidableEq, Repr

/-- One entry of the top-level `results` array of the search result. -/
structure SearchGroup where
  items : List SearchItem
deriving DecidableEq, Repr

/-- The parsed contents of `conan_search.json`. -/
structure SearchJson where
  results : List SearchGroup
deriving DecidableEq, Repr

/-- Message of the `ValueError` raised at an empty nesting level
(lines 86, 93, 100). -/
def notFoundMsg : String :=
  "Could not find any matching Conan packages on remote!"

/-- Warning printed when a nesting level has more than one entry
(lines 88, 95, 102). -/
def multiMsg : String :=
  "WARNING: multiple matching packages found, choosing first one!"

/-- The pure selection logic of `get_package_id` (lines 84-106) on the
parsed search JSON: the warnings printed, and either the chosen package id
or the `ValueError` message. -/
def getPackageId (j : SearchJson) : List String × Except String String :=
  match j.results with
  | [] => ([], .error notFoundMsg)
  | r :: rs =>
    let w1 : List String := if rs.isEmpty then [] else [multiMsg]
    match r.items with
    | [] => (w1, .error notFoundMsg)
    | it :: its =>
      let w2 := w1 ++ (if its.isEmpty then [] else [multiMsg])
      match it.packages with
      | [] => (w2, .error notFoundMsg)
      | p :: ps =>
        let w3 := w2 ++ (if ps.isEmpty then [] else [multiMsg])
        (w3, .ok p.id)

/-- `get_dependencies_from_conan_info` (lines 140-154): for every key of
the parsed `full_requires` section, in order, the text before the first
colon of the (parsed, hence lower-cased) key. -/
def getDependenciesFromConanInfo (doc : RawDoc) : List String :=
  (parseDoc doc).flatMap (fun s =>
    if s.1 = "full_requires" then
      s.2.map (fun kv => beforeFirstColon kv.1)
    else [])

/-- The `conan search` argument vector of `get_package_id` (lines 67-77). -/
def searchCmd (packageReference conanRemote fullQuery : String) : List String :=
  ["conan", "search", "-q", fullQuery, "-r", conanRemote,
   "-j", "conan_search.json", packageReference]

/-- The `conan get` argument vector of `get_conan_info` (lines 127-134). -/
def getConanInfoCmd (fullReference conanRemote : String) : List String :=
  ["conan", "get", "-r", conanRemote, fullReference, "conaninfo.txt"]

/-- The `conan install` argument vector built by `install`
(lines 161-178): base command, then the dependency override flags, then
the option flags, then the setting flags, then the package reference. -/
def installCmd (packageReference conanRemote conanProfilePath : String)
    (deps opts setts : List String) : List String :=
  let cmd := ["conan", "install", "-r", conanRemote, "-pr", conanProfilePath]
  let cmd := deps.foldl (fun c d => c ++ ["--require-override", d]) cmd
  let cmd := opts.foldl (fun c o => c ++ ["-o", o]) cmd
  let cmd := setts.foldl (fun c s => c ++ ["-s", s]) cmd
  cmd ++ [packageReference]

/-- The outputs of the external `conan` commands consumed by one run: the
parsed contents of `conan_search.json` after `conan search`, and the
`conaninfo.txt` document after `conan get`. -/
structure ExternalWorld where
  searchJson : SearchJson
  buildInfo : RawDoc

/-- `install_pkg` (lines 183-199) as a trace semantics: the list of
external command argument vectors invoked, in order, together with the
outcome (success, or the message of the uncaught `ValueError`). -/
def installPkg (packageReference conanRemote conanProfilePath : String)
    (profile : Option RawDoc) (opts setts : List String)
    (w : ExternalWorld) : List (List String) × Except String Unit :=
  match getFullQueryFromProfile profile opts setts with
  | .error e => ([], .error e)
  | .ok fullQuery =>
    let cmds1 := [searchCmd packageReference conanRemote fullQuery]
    match (getPackageId w.searchJson).2 with
    | .error e => (cmds1, .error e)
    | .ok packageId =>
      let fullReference := packageReference ++ ":" ++ packageId
      let cmds2 := cmds1 ++ [getConanInfoCmd fullReference conanRemote]
      let deps := getDependenciesFromConanInfo w.buildInfo
      let cmds3 := cmds2 ++
        [installCmd packageReference conanRemote conanProfilePath deps opts setts]
      (cmds3, .ok ())

/-! Specification-side definitions, used to state the claims. -/

/-- Whether a character is an ASCII upper-case letter. -/
def isAsciiUpper (c : Char) : Bool :=
  decide (65 ≤ c.toNat ∧ c.toNat ≤ 90)

/-- A string is lower-case when it contains no ASCII upper-case letter. -/
def lowercaseStr (s : String) : Prop :=
  ∀ c ∈ s.data, isAsciiUpper c = false

instance (s : String) : Decidable (lowercaseStr s) := by
  unfold lowercaseStr; infer_instance

/-- A serialized value is double-quoted when it starts and ends with `"`. -/
def isQuotedVal (v : String) : Bool :=
  v.data.head? == some '\"' && v.data.getLast? == some '\"'

/-- One step of first-seen key accumulation: append the key unless it is
already present. -/
def stepKeys (acc : List String) (k : String) : List String :=
  if acc.contains k then acc else acc ++ [k]

/-- The keys of a sequence of assignments in first-seen order. -/
def firstSeenKeys (ks : List String) : List String :=
  ks.foldl stepKeys []

/-- The value of the last assignment of `k` in a list of assignments. -/
def lastAssoc : List (String × String) → String → Option String
  | [], _ => none
  | kv :: rest, k =>
    match lastAssoc rest k with
    | some v => some v
    | none => if k = kv.1 then some kv.2 else none

/-- The value the spec assigns to key `k`: the last explicit setting for
`k` if any, else the last explicit option, else the profile value. -/
def specPrecedence (profQ optP settP : List (String × String)) (k : String) :
    Option String :=
  match lastAssoc settP k with
  | some v => some v
  | none =>
    match lastAssoc optP k with
    | some v => some v
    | none => lookupA profQ k

/-- The `(key, value)` pair of a well-formed `key=value` override string. -/
def parsePair (s : String) : Option (String × String) :=
  match pySplit '=' s with
  | [k, v] => some (k, v)
  | _ => none

/-- The pairs of a list of override strings (malformed ones dropped). -/
def pairsOf (l : List String) : List (String × String) :=
  l.filterMap parsePair

/-! Helper lemmas: characters and strings. -/

theorem isAsciiUpper_pyLowerChar (c : Char) :
    isAsciiUpper (pyLowerChar c) = false := by
  unfold pyLowerChar
  by_cases h : 65 ≤ c.toNat ∧ c.toNat ≤ 90
  · rw [if_pos h]
    obtain ⟨h1, h2⟩ := h
    set n := c.toNat with hn
    interval_cases n <;> decide
  · rw [if_neg h]
    unfold isAsciiUpper
    simpa using h

theorem lowercaseStr_pyLower (s : String) : lowercaseStr (pyLower s) := by
  intro c hc
  have : c ∈ s.data.map pyLowerChar := hc
  obtain ⟨c0, _, rfl⟩ := List.mem_map.mp this
  exact isAsciiUpper_pyLowerChar c0

theorem lowercaseStr_beforeFirstColon (s : String) (h : lowercaseStr s) :
    lowercaseStr (beforeFirstColon s) := by
  intro c hc
  have hc2 : c ∈ s.data.takeWhile (fun c => c ≠ ':') := hc
  exact h c ((s.data.takeWhile_sublist _).mem hc2)

/-! Helper lemmas: `upsert` and `applyAll`. -/

theorem mem_upsert {kv : String × String} (qs : List (String × String))
    (k v : String) (h : kv ∈ upsert qs k v) : kv ∈ qs ∨ kv = (k, v) := by
  induction qs with
  | nil => simp [upsert] at h; right; exact h
  | cons hd tl ih =>
    unfold upsert at h
    by_cases hk : hd.1 = k
    · rw [if_pos hk] at h
      rcases List.mem_cons.mp h with h | h
      · right; exact h
      · left; exact List.mem_cons_of_mem _ h
    · rw [if_neg hk] at h
      rcases List.mem_cons.mp h with h | h
      · left; exact h ▸ List.mem_cons_self _ _
      · rcases ih h with h | h
        · left; exact List.mem_cons_of_mem _ h
        · right; exact h

theorem lookupA_upsert (qs : List (String × String)) (k v k1 : String) :
    lookupA (upsert qs k v) k1 = if k1 = k then some v else lookupA qs k1 := by
  induction qs with
  | nil =>
    show (if k = k1 then some v else lookupA [] k1) = _
    by_cases h : k1 = k
    · rw [if_pos h.symm, if_pos h]
    · rw [if_neg (fun hc => h hc.symm), if_neg h]
  | cons hd tl ih =>
    unfold upsert
    by_cases hk : hd.1 = k
    · rw [if_pos hk]
      show (if k = k1 then some v else lookupA tl k1) = _
      by_cases h1 : k1 = k
      · rw [if_pos h1.symm, if_pos h1]
      · rw [if_neg (fun hc => h1 hc.symm), if_neg h1]
        show _ = if hd.1 = k1 then some hd.2 else lookupA tl k1
        rw [if_neg (fun hc => h1 (hc.symm.trans hk))]
    · rw [if_neg hk]
      show (if hd.1 = k1 then some hd.2 else lookupA (upsert tl k v) k1) = _
      by_cases h1 : hd.1 = k1
      · have hne : ¬ k1 = k := fun hc => hk (h1.trans hc)
        rw [if_pos h1, if_neg hne]
        show _ = if hd.1 = k1 then some hd.2 else lookupA tl k1
        rw [if_pos h1]
      · rw [if_neg h1, ih]
        by_cases h2 : k1 = k
        · rw [if_pos h2, if_pos h2]
        · rw [if_neg h2, if_neg h2]
          show _ = if hd.1 = k1 then some hd.2 else lookupA tl k1
          rw [if_neg h1]

theorem keys_upsert (qs : List (String × String)) (k v : String) :
    (upsert qs k v).map Prod.fst = stepKeys (qs.map Prod.fst) k := by
  induction qs with
  | nil => simp [upsert, stepKeys]
  | cons hd tl ih =>
    unfold upsert
    by_cases hk : hd.1 = k
    · have hcc : ((hd.1 :: tl.map Prod.fst).contains k) = true := by
        simp [List.contains_cons, hk.symm]
      rw [if_pos hk]
      show k :: tl.map Prod.fst = stepKeys (hd.1 :: tl.map Prod.fst) k
      unfold stepKeys
      rw [hcc]
      simp [hk]
    · have hne : ¬ k = hd.1 := fun hc => hk hc.symm
      have hcc : ((hd.1 :: tl.map Prod.fst).contains k)
          = ((tl.map Prod.fst).contains k) := by
        simp [List.contains_cons, hne]
      rw [if_neg hk]
      show hd.1 :: (upsert tl k v).map Prod.fst
        = stepKeys (hd.1 :: tl.map Prod.fst) k
      rw [ih]
      unfold stepKeys
      rw [hcc]
      cases hc : (tl.map Prod.fst).contains k <;> simp

theorem upsert_of_not_mem (qs : List (String × String)) (k v : String)
    (h : k ∉ qs.map Prod.fst) : upsert qs k v = qs ++ [(k, v)] := by
  induction qs with
  | nil => simp [upsert]
  | cons hd tl ih =>
    have h1 : ¬ hd.1 = k := fun hc => h (by simp [hc])
    have h2 : k ∉ tl.map Prod.fst := fun hc => h (by simp [hc])
    simp [upsert, h1, ih h2]

theorem mem_applyAll {kv : String × String} (qs ps : List (String × String))
    (h : kv ∈ applyAll qs ps) : kv ∈ qs ∨ kv ∈ ps := by
  induction ps generalizing qs with
  | nil => left; exact h
  | cons hd tl ih =>
    have h1 : kv ∈ applyAll (upsert qs hd.1 hd.2) tl := h
    rcases ih _ h1 with h2 | h2
    · rcases mem_upsert qs hd.1 hd.2 h2 with h3 | h3
      · left; exact h3
      · right; rw [h3]; exact List.mem_cons_self _ _
    · right; exact List.mem_cons_of_mem _ h2

theorem lookupA_applyAll (qs ps : List (String × String)) (k : String) :
    lookupA (applyAll qs ps) k =
      match lastAssoc ps k with
      | some v => some v
      | none => lookupA qs k := by
  induction ps generalizing qs with
  | nil => simp [applyAll, lastAssoc]
  | cons hd tl ih =>
    have h1 : applyAll qs (hd :: tl) = applyAll (upsert qs hd.1 hd.2) tl := rfl
    have h2 : lastAssoc (hd :: tl) k =
        match lastAssoc tl k with
        | some v => some v
        | none => if k = hd.1 then some hd.2 else none := rfl
    rw [h1, ih, h2]
    cases hl : lastAssoc tl k with
    | some v => simp
    | none =>
      simp only [lookupA_upsert]
      by_cases hk : k = hd.1
      · rw [if_pos hk, if_pos hk]
      · rw [if_neg hk, if_neg hk]

theorem keys_applyAll (qs ps : List (String × String)) :
    (applyAll qs ps).map Prod.fst =
      (ps.map Prod.fst).foldl stepKeys (qs.map Prod.fst) := by
  induction ps generalizing qs with
  | nil => rfl
  | cons hd tl ih =>
    have h1 : applyAll qs (hd :: tl) = applyAll (upsert qs hd.1 hd.2) tl := rfl
    rw [h1, ih, List.map_cons, List.foldl_cons, keys_upsert]

theorem stepKeys_nodup (acc : List String) (k : String) (h : acc.Nodup) :
    (stepKeys acc k).Nodup := by
  unfold stepKeys
  by_cases hc : acc.contains k
  · rwa [if_pos hc]
  · rw [if_neg hc]
    have hk : k ∉ acc := by simpa using hc
    simpa [List.nodup_append] using ⟨h, hk⟩

theorem foldl_stepKeys_nodup (ks : List String) (acc : List String)
    (h : acc.Nodup) : (ks.foldl stepKeys acc).Nodup := by
  induction ks generalizing acc with
  | nil => exact h
  | cons hd tl ih => exact ih _ (stepKeys_nodup acc hd h)

theorem foldl_stepKeys_of_nodup (ks : List String) (acc : List String)
    (h1 : ks.Nodup) (h2 : ∀ k ∈ ks, k ∉ acc) :
    ks.foldl stepKeys acc = acc ++ ks := by
  induction ks generalizing acc with
  | nil => simp
  | cons hd tl ih =>
    have hna : hd ∉ acc := h2 hd (List.mem_cons_self _ _)
    have hc : acc.contains hd = false := by simpa using hna
    have hstep : stepKeys acc hd = acc ++ [hd] := by
      unfold stepKeys; rw [hc]; simp
    rw [List.foldl_cons, hstep,
      ih (acc ++ [hd]) h1.of_cons (by
        intro k hk
        simp only [List.mem_append, List.mem_singleton]
        rintro (hka | rfl)
        · exact h2 k (List.mem_cons_of_mem _ hk) hka
        · exact (List.nodup_cons.mp h1).1 hk)]
    simp

/-! Helper lemmas: override parsing. -/

theorem parsePair_cases (s : String) :
    (∃ k v, pySplit '=' s = [k, v] ∧ parsePair s = some (k, v)) ∨
    (parsePair s = none ∧ (pySplit '=' s).length ≠ 2) := by
  unfold parsePair
  cases h : pySplit '=' s with
  | nil => right; exact ⟨rfl, by simp⟩
  | cons a t =>
    cases t with
    | nil => right; exact ⟨rfl, by simp⟩
    | cons b t2 =>
      cases t2 with
      | nil => left; exact ⟨a, b, by simp [h], rfl⟩
      | cons c t3 => right; exact ⟨rfl, by simp⟩

theorem applyOverrides_cons_some (msg s : String) (tl : List String)
    (qs : List (String × String)) (k v : String)
    (h : pySplit '=' s = [k, v]) :
    applyOverrides msg qs (s :: tl) = applyOverrides msg (upsert qs k v) tl := by
  simp only [applyOverrides]
  rw [h]

theorem applyOverrides_cons_bad (msg s : String) (tl : List String)
    (qs : List (String × String)) (h : parsePair s = none) :
    applyOverrides msg qs (s :: tl) = .error (msg ++ s) := by
  unfold parsePair at h
  unfold applyOverrides
  cases hsp : pySplit '=' s with
  | nil => rfl
  | cons a t =>
    cases t with
    | nil => rfl
    | cons b t2 =>
      cases t2 with
      | nil => rw [hsp] at h; simp at h
      | cons c t3 => rfl

theorem pairsOf_cons_some (s : String) (tl : List String) (k v : String)
    (h : parsePair s = some (k, v)) :
    pairsOf (s :: tl) = (k, v) :: pairsOf tl := by
  simp [pairsOf, List.filterMap_cons, h]

theorem applyOverrides_ok (msg : String) (l : List String)
    (qs : List (String × String))
    (h : ∀ s ∈ l, (pySplit '=' s).length = 2) :
    applyOverrides msg qs l = .ok (applyAll qs (pairsOf l)) := by
  induction l generalizing qs with
  | nil => rfl
  | cons hd tl ih =>
    rcases parsePair_cases hd with ⟨k, v, hsp, hpp⟩ | ⟨hpp, hlen⟩
    · rw [applyOverrides_cons_some msg hd tl qs k v hsp,
        ih _ (fun s hs => h s (List.mem_cons_of_mem _ hs)),
        pairsOf_cons_some hd tl k v hpp]
      rfl
    · exact absurd (h hd (List.mem_cons_self _ _)) hlen

theorem applyOverrides_error (msg : String) (l : List String)
    (qs : List (String × String))
    (h : ∃ s ∈ l, (pySplit '=' s).length ≠ 2) :
    ∃ s1, applyOverrides msg qs l = .error (msg ++ s1) := by
  induction l generalizing qs with
  | nil => simp at h
  | cons hd tl ih =>
    rcases parsePair_cases hd with ⟨k, v, hsp, hpp⟩ | ⟨hpp, hlen⟩
    · have hlen2 : (pySplit '=' hd).length = 2 := by rw [hsp]; rfl
      have htl : ∃ s ∈ tl, (pySplit '=' s).length ≠ 2 := by
        obtain ⟨s, hs, hb⟩ := h
        rcases List.mem_cons.mp hs with rfl | hs2
        · exact absurd hlen2 hb
        · exact ⟨s, hs2, hb⟩
      rw [applyOverrides_cons_some msg hd tl qs k v hsp]
      exact ih _ htl
    · exact ⟨hd, applyOverrides_cons_bad msg hd tl qs hpp⟩

theorem mem_applyOverrides (msg : String) (l : List String)
    (qs qs1 : List (String × String)) (kv : String × String)
    (hok : applyOverrides msg qs l = .ok qs1) (hmem : kv ∈ qs1) :
    kv ∈ qs ∨ kv ∈ pairsOf l := by
  induction l generalizing qs with
  | nil =>
    unfold applyOverrides at hok
    injection hok with h
    subst h
    left; exact hmem
  | cons hd tl ih =>
    rcases parsePair_cases hd with ⟨k, v, hsp, hpp⟩ | ⟨hpp, hlen⟩
    · rw [applyOverrides_cons_some msg hd tl qs k v hsp] at hok
      rcases ih _ hok with h1 | h1
      · rcases mem_upsert qs k v h1 with h2 | h2
        · left; exact h2
        · right
          rw [pairsOf_cons_some hd tl k v hpp, h2]
          exact List.mem_cons_self _ _
      · right
        rw [pairsOf_cons_some hd tl k v hpp]
        exact List.mem_cons_of_mem _ h1
    · rw [applyOverrides_cons_bad msg hd tl qs hpp] at hok
      simp at hok

/-! Helper lemmas: ini parsing. -/

theorem parseEntriesInto_eq (m sec : List (String × String)) :
    parseEntriesInto m sec
      = applyAll m (sec.map (fun kv => (pyLower kv.1, kv.2))) := by
  unfold parseEntriesInto applyAll
  rw [List.foldl_map]

/-- All entry keys of all sections of a document are lower-case. -/
def LowerDoc (d : RawDoc) : Prop :=
  ∀ s ∈ d, ∀ kv ∈ s.2, lowercaseStr kv.1

theorem lower_parseEntriesInto (m sec : List (String × String))
    (hm : ∀ kv ∈ m, lowercaseStr kv.1) :
    ∀ kv ∈ parseEntriesInto m sec, lowercaseStr kv.1 := by
  intro kv hkv
  rw [parseEntriesInto_eq] at hkv
  rcases mem_applyAll _ _ hkv with h | h
  · exact hm kv h
  · obtain ⟨kv0, _, rfl⟩ := List.mem_map.mp h
    exact lowercaseStr_pyLower kv0.1

theorem lowerDoc_upsertSection (acc : RawDoc) (n : String)
    (es : List (String × String)) (h : LowerDoc acc) :
    LowerDoc (upsertSection acc n es) := by
  induction acc with
  | nil =>
    intro s hs kv hkv
    have hs2 : s = (n, parseEntriesInto [] es) := by
      simpa [upsertSection] using hs
    subst hs2
    exact lower_parseEntriesInto [] es
      (fun kv0 h0 => absurd h0 (List.not_mem_nil kv0)) kv hkv
  | cons hd tl ih =>
    intro s hs kv hkv
    unfold upsertSection at hs
    by_cases hn : hd.1 = n
    · rw [if_pos hn] at hs
      rcases List.mem_cons.mp hs with rfl | hs2
      · exact lower_parseEntriesInto hd.2 es
          (fun kv0 h0 => h hd (List.mem_cons_self _ _) kv0 h0) kv hkv
      · exact h s (List.mem_cons_of_mem _ hs2) kv hkv
    · rw [if_neg hn] at hs
      rcases List.mem_cons.mp hs with rfl | hs2
      · exact h _ (List.mem_cons_self _ _) kv hkv
      · exact ih (fun s2 h2 kv2 hk2 =>
          h s2 (List.mem_cons_of_mem _ h2) kv2 hk2) s hs2 kv hkv

theorem lowerDoc_parseDoc (doc : RawDoc) : LowerDoc (parseDoc doc) := by
  suffices h : ∀ acc, LowerDoc acc →
      LowerDoc (doc.foldl (fun acc s => upsertSection acc s.1 s.2) acc) by
    exact h [] (fun s hs => absurd hs (List.not_mem_nil s))
  induction doc with
  | nil => intro acc h; exact h
  | cons hd tl ih =>
    intro acc h
    exact ih _ (lowerDoc_upsertSection acc hd.1 hd.2 h)

theorem parseDoc_singleton (n : String) (es : List (String × String)) :
    parseDoc [(n, es)] = [(n, parseEntriesInto [] es)] := rfl

theorem applyAll_of_disjoint (qs ps : List (String × String))
    (h1 : (ps.map Prod.fst).Nodup)
    (h2 : ∀ k ∈ ps.map Prod.fst, k ∉ qs.map Prod.fst) :
    applyAll qs ps = qs ++ ps := by
  induction ps generalizing qs with
  | nil => simp [applyAll]
  | cons hd tl ih =>
    have hna : hd.1 ∉ qs.map Prod.fst := h2 hd.1 (by simp)
    have hstep : applyAll qs (hd :: tl) = applyAll (upsert qs hd.1 hd.2) tl := rfl
    have hnodup : (tl.map Prod.fst).Nodup := by
      have := h1
      rw [List.map_cons] at this
      exact (List.nodup_cons.mp this).2
    have hhd : hd.1 ∉ tl.map Prod.fst := by
      have := h1
      rw [List.map_cons] at this
      exact (List.nodup_cons.mp this).1
    rw [hstep, upsert_of_not_mem qs hd.1 hd.2 hna,
      ih (qs ++ [(hd.1, hd.2)]) hnodup (by
        intro k hk
        rw [List.map_append, List.mem_append]
        rintro (hka | hkb)
        · exact h2 k (List.mem_cons_of_mem _ hk) hka
        · simp only [List.map_cons, List.map_nil, List.mem_singleton] at hkb
          exact hhd (hkb ▸ hk))]
    simp

theorem parseEntriesInto_nil_of_nodup (sec : List (String × String))
    (h : (sec.map (fun kv => pyLower kv.1)).Nodup) :
    parseEntriesInto [] sec = sec.map (fun kv => (pyLower kv.1, kv.2)) := by
  rw [parseEntriesInto_eq, applyAll_of_disjoint]
  · simp
  · simpa [List.map_map, Function.comp] using h
  · intro k _ hk
    simp at hk

theorem mem_profileContribPairs (doc : RawDoc) (kv : String × String)
    (h : kv ∈ profileContribPairs doc) :
    ∃ s ∈ parseDoc doc, (s.1 = "settings" ∨ s.1 = "options") ∧
      ∃ kv0 ∈ s.2, pyEndsWith kv0.1 "_build" = false ∧
        kv = (kv0.1, quoteIfWs kv0.2) := by
  unfold profileContribPairs at h
  obtain ⟨s, hs, hmem⟩ := List.mem_flatMap.mp h
  by_cases hn : s.1 = "settings" ∨ s.1 = "options"
  · rw [if_pos hn] at hmem
    obtain ⟨kv0, hkv0, heq⟩ := List.mem_map.mp hmem
    have hf := List.mem_filter.mp hkv0
    refine ⟨s, hs, hn, kv0, hf.1, ?_, heq.symm⟩
    simpa using hf.2
  · rw [if_neg hn] at hmem
    exact absurd hmem (List.not_mem_nil kv)

theorem mem_profileQueries (doc : RawDoc) (kv : String × String)
    (h : kv ∈ profileQueries doc) : kv ∈ profileContribPairs doc := by
  unfold profileQueries at h
  rcases mem_applyAll _ _ h with h1 | h1
  · exact absurd h1 (List.not_mem_nil kv)
  · exact h1

theorem sectionNames_upsertSection (acc : RawDoc) (n : String)
    (es : List (String × String)) :
    (upsertSection acc n es).map Prod.fst = stepKeys (acc.map Prod.fst) n := by
  induction acc with
  | nil => simp [upsertSection, stepKeys]
  | cons hd tl ih =>
    unfold upsertSection
    by_cases hn : hd.1 = n
    · have hcc : ((hd.1 :: tl.map Prod.fst).contains n) = true := by
        simp [List.contains_cons, hn.symm]
      rw [if_pos hn]
      show hd.1 :: tl.map Prod.fst = stepKeys (hd.1 :: tl.map Prod.fst) n
      unfold stepKeys
      rw [hcc]
      simp
    · have hne : ¬ n = hd.1 := fun hc => hn hc.symm
      have hcc : ((hd.1 :: tl.map Prod.fst).contains n)
          = ((tl.map Prod.fst).contains n) := by
        simp [List.contains_cons, hne]
      rw [if_neg hn]
      show hd.1 :: (upsertSection tl n es).map Prod.fst
        = stepKeys (hd.1 :: tl.map Prod.fst) n
      rw [ih]
      unfold stepKeys
      rw [hcc]
      cases hc : (tl.map Prod.fst).contains n <;> simp

theorem sectionNames_parseDocAux (doc : RawDoc) (acc : RawDoc) :
    ((doc.foldl (fun acc s => upsertSection acc s.1 s.2) acc).map Prod.fst)
      = (doc.map Prod.fst).foldl stepKeys (acc.map Prod.fst) := by
  induction doc generalizing acc with
  | nil => rfl
  | cons hd tl ih =>
    rw [List.foldl_cons, ih, List.map_cons, List.foldl_cons,
      sectionNames_upsertSection]

theorem mem_foldl_stepKeys (l : List String) (acc : List String) (k : String)
    (h : k ∈ l.foldl stepKeys acc) : k ∈ acc ∨ k ∈ l := by
  induction l generalizing acc with
  | nil => left; exact h
  | cons hd tl ih =>
    rcases ih (stepKeys acc hd) h with h1 | h1
    · unfold stepKeys at h1
      split at h1
      · left; exact h1
      · rcases List.mem_append.mp h1 with h2 | h2
        · left; exact h2
        · right
          simp only [List.mem_singleton] at h2
          simp [h2]
    · right; exact List.mem_cons_of_mem _ h1

theorem nodup_sectionNames_parseDoc (doc : RawDoc) :
    ((parseDoc doc).map Prod.fst).Nodup := by
  unfold parseDoc
  rw [sectionNames_parseDocAux]
  exact foldl_stepKeys_nodup _ [] List.nodup_nil

theorem upsertSection_of_not_mem (acc : RawDoc) (n : String)
    (es : List (String × String)) (h : n ∉ acc.map Prod.fst) :
    upsertSection acc n es = acc ++ [(n, parseEntriesInto [] es)] := by
  induction acc with
  | nil => simp [upsertSection]
  | cons hd tl ih =>
    have h1 : ¬ hd.1 = n := fun hc => h (by simp [hc])
    have h2 : n ∉ tl.map Prod.fst := fun hc => h (by simp [hc])
    simp [upsertSection, h1, ih h2]

theorem mem_upsertSection_preserved (acc : RawDoc) (n m : String)
    (es X : List (String × String)) (hmem : (m, X) ∈ acc) (hne : n ≠ m) :
    (m, X) ∈ upsertSection acc n es := by
  induction acc with
  | nil => cases hmem
  | cons hd tl ih =>
    unfold upsertSection
    by_cases hn : hd.1 = n
    · rw [if_pos hn]
      rcases List.mem_cons.mp hmem with h | h
      · exfalso
        apply hne
        rw [← h] at hn
        exact hn.symm
      · exact List.mem_cons_of_mem _ h
    · rw [if_neg hn]
      rcases List.mem_cons.mp hmem with h | h
      · exact h ▸ List.mem_cons_self _ _
      · exact List.mem_cons_of_mem _ (ih h)

theorem mem_parseFold_preserved (post : RawDoc) (acc : RawDoc) (m : String)
    (X : List (String × String)) (hmem : (m, X) ∈ acc)
    (hpost : m ∉ post.map Prod.fst) :
    (m, X) ∈ post.foldl (fun acc s => upsertSection acc s.1 s.2) acc := by
  induction post generalizing acc with
  | nil => exact hmem
  | cons hd tl ih =>
    have hne : hd.1 ≠ m := fun hc => hpost (by simp [hc])
    have h2 : m ∉ tl.map Prod.fst := fun hc => hpost (by simp [hc])
    exact ih _ (mem_upsertSection_preserved acc hd.1 m hd.2 X hmem hne) h2

theorem flatMap_section_nil (L : RawDoc) (n : String)
    (g : List (String × String) → List String)
    (h : n ∉ L.map Prod.fst) :
    L.flatMap (fun s => if s.1 = n then g s.2 else []) = [] := by
  induction L with
  | nil => rfl
  | cons hd tl ih =>
    have h1 : ¬ hd.1 = n := fun hc => h (by simp [hc])
    have h2 : n ∉ tl.map Prod.fst := fun hc => h (by simp [hc])
    rw [List.flatMap_cons, if_neg h1, ih h2]
    rfl

theorem flatMap_unique_section (L : RawDoc) (n : String)
    (es : List (String × String)) (g : List (String × String) → List String)
    (hnd : (L.map Prod.fst).Nodup) (hmem : (n, es) ∈ L) :
    L.flatMap (fun s => if s.1 = n then g s.2 else []) = g es := by
  induction L with
  | nil => cases hmem
  | cons hd tl ih =>
    rw [List.map_cons] at hnd
    have hnd2 : (tl.map Prod.fst).Nodup := (List.nodup_cons.mp hnd).2
    have hhd : hd.1 ∉ tl.map Prod.fst := (List.nodup_cons.mp hnd).1
    rw [List.flatMap_cons]
    by_cases hn : hd.1 = n
    · have hnotin : n ∉ tl.map Prod.fst := hn ▸ hhd
      have heq : hd = (n, es) := by
        rcases List.mem_cons.mp hmem with h | h
        · exact h.symm
        · exact absurd (List.mem_map.mpr ⟨(n, es), h, rfl⟩) hnotin
      rw [heq, if_pos rfl, flatMap_section_nil tl n g hnotin]
      simp
    · have hmem2 : (n, es) ∈ tl := by
        rcases List.mem_cons.mp hmem with h | h
        · exact absurd (congrArg Prod.fst h.symm) hn
        · exact h
      rw [if_neg hn, ih hnd2 hmem2]
      rfl

theorem firstSeenKeys_of_nodup (l : List String) (h : l.Nodup) :
    firstSeenKeys l = l := by
  unfold firstSeenKeys
  rw [foldl_stepKeys_of_nodup l [] h (fun k _ => List.not_mem_nil k)]
  rfl

theorem isQuotedVal_quoteIfWs (w : String) (h : pyContainsWs w = true) :
    isQuotedVal (quoteIfWs w) = true := by
  unfold quoteIfWs
  rw [if_pos h]
  unfold isQuotedVal
  have hdata : ("\"" ++ w ++ "\"").data = ('\"' :: w.data) ++ ['\"'] := by
    rw [String.data_append, String.data_append]
    rfl
  rw [hdata, List.getLast?_concat]
  rfl

theorem quoteIfWs_of_no_ws (w : String) (h : pyContainsWs w = false) :
    quoteIfWs w = w := by
  unfold quoteIfWs
  simp [h]

theorem parsePair_some_split (s k v : String)
    (h : parsePair s = some (k, v)) : pySplit '=' s = [k, v] := by
  rcases parsePair_cases s with ⟨k0, v0, hsp, hpp⟩ | ⟨hpp, hlen⟩
  · have h2 : some (k0, v0) = some (k, v) := hpp.symm.trans h
    injection h2 with h3
    injection h3 with ha hb
    rw [hsp, ha, hb]
  · rw [h] at hpp
    exact Option.noConfusion hpp

theorem mem_pairsOf_split (l : List String) (k v : String)
    (h : (k, v) ∈ pairsOf l) : ∃ s ∈ l, pySplit '=' s = [k, v] := by
  unfold pairsOf at h
  obtain ⟨s, hs, hps⟩ := List.mem_filterMap.mp h
  exact ⟨s, hs, parsePair_some_split s k v hps⟩

/-! Claim theorems. -/

/-- C1 counterexample: on the build-info document whose `full_requires`
keys are `libA/1.2@u/c:abcdef123456` and `libB/3.4@u/c:fedcba654321`,
`get_dependencies_from_conan_info` returns the lower-cased identifiers
`["liba/1.2@u/c", "libb/3.4@u/c"]`, not `["libA/1.2@u/c", "libB/3.4@u/c"]`
as the claim states: the ini parser's default `optionxform` lower-cases
every key it reads. -/
theorem extract_deps_case_counterexample :
    getDependenciesFromConanInfo
        [("full_requires",
          [("libA/1.2@u/c:abcdef123456", ""), ("libB/3.4@u/c:fedcba654321", "")])]
      = ["liba/1.2@u/c", "libb/3.4@u/c"] ∧
    (["liba/1.2@u/c", "libb/3.4@u/c"] : List String)
      ≠ ["libA/1.2@u/c", "libB/3.4@u/c"] := by
  constructor
  · rfl
  · decide

/-- C1 (amended): for every build-info document with one `full_requires`
section, whatever other sections surround it, the returned dependency list
is, in document order, the text before the first colon of the lower-casing
of each key of that section, one entry per key (the parser keeps the first
occurrence of keys that collide after lower-casing; when the lower-cased
keys are pairwise distinct the list has exactly one entry for every key of
the document). -/
theorem extract_deps_lowercased_prefix_of_requires (pre post : RawDoc)
    (entries : List (String × String))
    (hpre : "full_requires" ∉ pre.map Prod.fst)
    (hpost : "full_requires" ∉ post.map Prod.fst) :
    getDependenciesFromConanInfo (pre ++ ("full_requires", entries) :: post)
      = (firstSeenKeys (entries.map (fun kv => pyLower kv.1))).map
          beforeFirstColon ∧
    ((entries.map (fun kv => pyLower kv.1)).Nodup →
      getDependenciesFromConanInfo (pre ++ ("full_requires", entries) :: post)
        = entries.map (fun kv => beforeFirstColon (pyLower kv.1))) := by
  have hparse : ("full_requires", parseEntriesInto [] entries)
      ∈ parseDoc (pre ++ ("full_requires", entries) :: post) := by
    unfold parseDoc
    rw [List.foldl_append, List.foldl_cons]
    have hpren : "full_requires" ∉
        ((pre.foldl (fun acc s => upsertSection acc s.1 s.2) []).map
          Prod.fst) := by
      rw [sectionNames_parseDocAux]
      intro hc
      rcases mem_foldl_stepKeys _ _ _ hc with h | h
      · exact List.not_mem_nil _ h
      · exact hpre h
    rw [upsertSection_of_not_mem _ _ _ hpren]
    exact mem_parseFold_preserved post _ _ _ (by simp) hpost
  have hmain : getDependenciesFromConanInfo
      (pre ++ ("full_requires", entries) :: post)
      = (parseEntriesInto [] entries).map (fun kv => beforeFirstColon kv.1) := by
    unfold getDependenciesFromConanInfo
    exact flatMap_unique_section _ "full_requires" _ _
      (nodup_sectionNames_parseDoc _) hparse
  have hkeys : (parseEntriesInto [] entries).map Prod.fst
      = firstSeenKeys (entries.map (fun kv => pyLower kv.1)) := by
    rw [parseEntriesInto_eq, keys_applyAll]
    unfold firstSeenKeys
    rw [List.map_map]
    rfl
  constructor
  · rw [hmain, ← hkeys, List.map_map]
    rfl
  · intro hnd
    rw [hmain, parseEntriesInto_nil_of_nodup entries hnd, List.map_map]
    rfl

/-- Witness for the amended C1: a document with a `settings` section
before and an `env` section after the `full_requires` section holding the
claim's example keys. -/
theorem extract_deps_lowercased_prefix_of_requires_witness :
    ("full_requires" ∉
      ([("settings", [("os", "Linux")])] : RawDoc).map Prod.fst) ∧
    (getDependenciesFromConanInfo
        ([("settings", [("os", "Linux")])] ++
          ("full_requires",
            [("libA/1.2@u/c:abcdef123456", ""),
             ("libB/3.4@u/c:fedcba654321", "")]) ::
          [("env", [("cc", "gcc")])])
      = (firstSeenKeys (([("libA/1.2@u/c:abcdef123456", ""),
            ("libB/3.4@u/c:fedcba654321", "")] :
            List (String × String)).map (fun kv => pyLower kv.1))).map
          beforeFirstColon ∧
    ((([("libA/1.2@u/c:abcdef123456", ""),
        ("libB/3.4@u/c:fedcba654321", "")] :
        List (String × String)).map (fun kv => pyLower kv.1)).Nodup →
      getDependenciesFromConanInfo
          ([("settings", [("os", "Linux")])] ++
            ("full_requires",
              [("libA/1.2@u/c:abcdef123456", ""),
               ("libB/3.4@u/c:fedcba654321", "")]) ::
            [("env", [("cc", "gcc")])])
        = ([("libA/1.2@u/c:abcdef123456", ""),
            ("libB/3.4@u/c:fedcba654321", "")] :
            List (String × String)).map
            (fun kv => beforeFirstColon (pyLower kv.1)))) :=
  ⟨by decide,
   extract_deps_lowercased_prefix_of_requires
     [("settings", [("os", "Linux")])] [("env", [("cc", "gcc")])]
     [("libA/1.2@u/c:abcdef123456", ""), ("libB/3.4@u/c:fedcba654321", "")]
     (by decide) (by decide)⟩

theorem list_foldl_flag (flag : String) (l : List String) (init : List String) :
    l.foldl (fun c x => c ++ [flag, x]) init
      = init ++ l.flatMap (fun x => [flag, x]) := by
  induction l generalizing init with
  | nil => simp
  | cons hd tl ih => simp [ih]

/-- C3: the install invocation built by `install` consists of the base
command, then one `--require-override` flag pair per dependency, then one
`-o` pair per option, then one `-s` pair per setting, with the target
package reference as the last argument. -/
theorem install_cmd_structure (packageReference conanRemote conanProfilePath :
    String) (deps opts setts : List String) :
    installCmd packageReference conanRemote conanProfilePath deps opts setts
      = ["conan", "install", "-r", conanRemote, "-pr", conanProfilePath]
        ++ deps.flatMap (fun d => ["--require-override", d])
        ++ opts.flatMap (fun o => ["-o", o])
        ++ setts.flatMap (fun x => ["-s", x])
        ++ [packageReference] ∧
    (installCmd packageReference conanRemote conanProfilePath deps opts
        setts).getLast? = some packageReference := by
  have h1 : installCmd packageReference conanRemote conanProfilePath deps opts
      setts
      = ["conan", "install", "-r", conanRemote, "-pr", conanProfilePath]
        ++ deps.flatMap (fun d => ["--require-override", d])
        ++ opts.flatMap (fun o => ["-o", o])
        ++ setts.flatMap (fun x => ["-s", x])
        ++ [packageReference] := by
    show (setts.foldl (fun c x => c ++ ["-s", x])
        (opts.foldl (fun c x => c ++ ["-o", x])
          (deps.foldl (fun c x => c ++ ["--require-override", x])
            ["conan", "install", "-r", conanRemote, "-pr", conanProfilePath])))
        ++ [packageReference] = _
    rw [list_foldl_flag, list_foldl_flag, list_foldl_flag]
  refine ⟨h1, ?_⟩
  rw [h1]
  exact List.getLast?_concat _

/-- C5: whenever the search result is empty at the `results` level, at the
first result's `items` level, or at the first item's `packages` level,
`get_package_id` fails with the not-found `ValueError`, and the pipeline
never reaches a `conan install` invocation. -/
theorem empty_search_level_not_found (pr cr cpp : String)
    (profile : Option RawDoc) (opts setts : List String)
    (j : SearchJson) (bi : RawDoc)
    (h : j.results = [] ∨ ∃ r rs, j.results = r :: rs ∧
        (r.items = [] ∨ ∃ it its, r.items = it :: its ∧ it.packages = [])) :
    (getPackageId j).2 = Except.error notFoundMsg ∧
    ∀ c ∈ (installPkg pr cr cpp profile opts setts ⟨j, bi⟩).1,
      c.take 2 ≠ ["conan", "install"] := by
  have hpid : (getPackageId j).2 = Except.error notFoundMsg := by
    rcases h with h | ⟨r, rs, hr, h2⟩
    · simp [getPackageId, h]
    · rcases h2 with h2 | ⟨it, its, hit, hp⟩
      · simp [getPackageId, hr, h2]
      · simp [getPackageId, hr, hit, hp]
  refine ⟨hpid, ?_⟩
  intro c hc
  unfold installPkg at hc
  cases hq : getFullQueryFromProfile profile opts setts with
  | error e => rw [hq] at hc; simp at hc
  | ok q =>
    rw [hq] at hc
    simp only [hpid] at hc
    simp at hc
    subst hc
    simp [searchCmd, List.take]

/-- Witness for C5 at `results = []`. -/
theorem empty_search_level_not_found_witness :
    (getPackageId ⟨[]⟩).2 = Except.error notFoundMsg ∧
    ∀ c ∈ (installPkg "app/1.0@u/c" "rem" "prof" none [] []
        ⟨⟨[]⟩, []⟩).1, c.take 2 ≠ ["conan", "install"] :=
  empty_search_level_not_found "app/1.0@u/c" "rem" "prof" none [] [] ⟨[]⟩ []
    (Or.inl rfl)

/-- C6 counterexample: a search result with two entries at the `results`
level whose first entry has an empty `items` list makes `get_package_id`
fail, although a level with more than one entry is present — the claim's
"does not fail" does not hold for every such result. -/
theorem multi_level_failure_counterexample :
    (SearchJson.mk [SearchGroup.mk [],
        SearchGroup.mk [SearchItem.mk [ConanPackage.mk "pid"]]]).results.length
      > 1 ∧
    (getPackageId (SearchJson.mk [SearchGroup.mk [],
        SearchGroup.mk [SearchItem.mk [ConanPackage.mk "pid"]]])).2
      = Except.error notFoundMsg := by
  constructor
  · decide
  · rfl

/-- C6 (amended): when every traversed level is nonempty (the `results`
list, the first result's `items`, the first item's `packages`) and some
level has more than one entry, `get_package_id` does not fail: it emits at
least one warning and returns the id of the first package of the first
item of the first result. -/
theorem multi_match_first_chosen (j : SearchJson) (r : SearchGroup)
    (rs : List SearchGroup) (it : SearchItem) (its : List SearchItem)
    (p : ConanPackage) (ps : List ConanPackage)
    (h1 : j.results = r :: rs) (h2 : r.items = it :: its)
    (h3 : it.packages = p :: ps)
    (h4 : rs ≠ [] ∨ its ≠ [] ∨ ps ≠ []) :
    ∃ warns, getPackageId j = (warns, Except.ok p.id) ∧ warns ≠ [] := by
  refine ⟨(if rs.isEmpty then [] else [multiMsg]) ++
      ((if its.isEmpty then [] else [multiMsg]) ++
        (if ps.isEmpty then [] else [multiMsg])),
    by simp [getPackageId, h1, h2, h3], ?_⟩
  rcases h4 with h4 | h4 | h4
  · cases rs with
    | nil => exact absurd rfl h4
    | cons a b => simp
  · cases its with
    | nil => exact absurd rfl h4
    | cons a b => simp
  · cases ps with
    | nil => exact absurd rfl h4
    | cons a b => simp

/-- Witness for the amended C6: two packages at the `packages` level. -/
theorem multi_match_first_chosen_witness :
    ∃ warns,
      getPackageId (SearchJson.mk [SearchGroup.mk [SearchItem.mk
          [ConanPackage.mk "p1", ConanPackage.mk "p2"]]])
        = (warns, Except.ok "p1") ∧ warns ≠ [] :=
  multi_match_first_chosen _ _ _ _ _ _ _ rfl rfl rfl
    (Or.inr (Or.inr (by decide)))

/-- C7 counterexample: the option override `k=a b` carries a value with
whitespace, yet its clause in the merged query is not double-quoted — only
profile-derived values are quoted. -/
theorem override_whitespace_unquoted_counterexample :
    mergedQueries none ["k=a b"] [] = Except.ok [("k", "a b")] ∧
    pyContainsWs "a b" = true ∧
    isQuotedVal "a b" = false ∧
    getFullQueryFromProfile none ["k=a b"] [] = Except.ok "k=a b" := by
  refine ⟨rfl, by decide, by decide, rfl⟩

/-- C7 (amended): in every merged query, a value coming from the profile
has passed through the whitespace-quoting step — its clause is
double-quoted whenever the raw profile value contains whitespace, and is
the raw value verbatim when it does not — while every other value is the
verbatim text after the `=` of one of the supplied option or setting
override strings, which the tool never quotes. -/
theorem profile_only_values_quoted :
    (∀ doc k v, (k, v) ∈ profileQueries doc →
      ∃ s ∈ parseDoc doc, ∃ kv0 ∈ s.2, k = kv0.1 ∧ v = quoteIfWs kv0.2 ∧
        (pyContainsWs kv0.2 = true → isQuotedVal v = true) ∧
        (pyContainsWs kv0.2 = false → v = kv0.2)) ∧
    (∀ profile opts setts Q, mergedQueries profile opts setts = Except.ok Q →
      ∀ k v, (k, v) ∈ Q →
        (k, v) ∈ profileQueries (profile.getD []) ∨
        (∃ s ∈ opts, pySplit '=' s = [k, v]) ∨
        (∃ s ∈ setts, pySplit '=' s = [k, v])) := by
  constructor
  · intro doc k v h
    obtain ⟨s, hs, hsec, kv0, hkv0, hnb, heq⟩ :=
      mem_profileContribPairs doc (k, v) (mem_profileQueries doc (k, v) h)
    have hk : k = kv0.1 := congrArg Prod.fst heq
    have hv : v = quoteIfWs kv0.2 := congrArg Prod.snd heq
    refine ⟨s, hs, kv0, hkv0, hk, hv, ?_, ?_⟩
    · intro hws
      rw [hv]
      exact isQuotedVal_quoteIfWs kv0.2 hws
    · intro hws
      rw [hv]
      exact quoteIfWs_of_no_ws kv0.2 hws
  · intro profile opts setts Q hok k v hmem
    unfold mergedQueries at hok
    cases h1 : applyOverrides optErrMsg
        (profileQueries (Option.getD profile [])) opts with
    | error e => rw [h1] at hok; simp at hok
    | ok qs =>
      rw [h1] at hok
      rcases mem_applyOverrides settErrMsg setts qs Q (k, v) hok hmem with
        h2 | h2
      · rcases mem_applyOverrides optErrMsg opts _ qs (k, v) h1 h2 with
          h3 | h3
        · left; exact h3
        · right; left; exact mem_pairsOf_split opts k v h3
      · right; right; exact mem_pairsOf_split setts k v h2

/-- Witness for the amended C7: a profile value with whitespace, an option
override with a whitespace value, and a setting override. -/
theorem profile_only_values_quoted_witness :
    (∃ s ∈ parseDoc [("options", [("os", "mac os")])], ∃ kv0 ∈ s.2,
      "os" = kv0.1 ∧ "\"mac os\"" = quoteIfWs kv0.2 ∧
      (pyContainsWs kv0.2 = true → isQuotedVal "\"mac os\"" = true) ∧
      (pyContainsWs kv0.2 = false → "\"mac os\"" = kv0.2)) ∧
    (("o1", "a b") ∈ profileQueries
        ((some [("options", [("os", "mac os")])]).getD []) ∨
      (∃ s ∈ ["o1=a b"], pySplit '=' s = ["o1", "a b"]) ∨
      (∃ s ∈ ["s1=c d"], pySplit '=' s = ["o1", "a b"])) :=
  ⟨profile_only_values_quoted.1 [("options", [("os", "mac os")])] "os"
      "\"mac os\"" (by decide),
   profile_only_values_quoted.2 (some [("options", [("os", "mac os")])])
      ["o1=a b"] ["s1=c d"]
      [("os", "\"mac os\""), ("o1", "a b"), ("s1", "c d")] rfl "o1" "a b"
      (by decide)⟩

/-- C8: only the `settings` and `options` sections of the profile
contribute keys to the merged query, and no contributed key ends in
`_build`. -/
theorem profile_sections_and_build_filter (doc : RawDoc) :
    mergedQueries (some doc) [] [] = Except.ok (profileQueries doc) ∧
    ∀ k, k ∈ (profileQueries doc).map Prod.fst →
      pyEndsWith k "_build" = false ∧
      ∃ s ∈ parseDoc doc, (s.1 = "settings" ∨ s.1 = "options") ∧
        k ∈ s.2.map Prod.fst := by
  refine ⟨rfl, ?_⟩
  intro k hk
  obtain ⟨kv, hkv, rfl⟩ := List.mem_map.mp hk
  obtain ⟨s, hs, hsec, kv0, hkv0, hnb, heq⟩ :=
    mem_profileContribPairs doc kv (mem_profileQueries doc kv hkv)
  constructor
  · rw [heq]
    exact hnb
  · exact ⟨s, hs, hsec,
      List.mem_map.mpr ⟨kv0, hkv0, (congrArg Prod.fst heq).symm⟩⟩

/-- Witness for C8. -/
theorem profile_sections_and_build_filter_witness :
    ("os" ∈ (profileQueries
        [("settings", [("os", "Linux"), ("os_build", "Linux")])]).map
        Prod.fst) ∧
    (pyEndsWith "os" "_build" = false ∧
      ∃ s ∈ parseDoc [("settings", [("os", "Linux"), ("os_build", "Linux")])],
        (s.1 = "settings" ∨ s.1 = "options") ∧ "os" ∈ s.2.map Prod.fst) :=
  ⟨by decide,
   (profile_sections_and_build_filter
     [("settings", [("os", "Linux"), ("os_build", "Linux")])]).2 "os"
     (by decide)⟩

/-- C9: every profile-derived query key and every dependency identifier
returned by `get_dependencies_from_conan_info` is lower-case (the shared
ini parser lower-cases keys), while explicit override keys are used
verbatim, not normalized. -/
theorem parsed_keys_lowercase :
    (∀ doc k, k ∈ (profileQueries doc).map Prod.fst → lowercaseStr k) ∧
    (∀ doc d, d ∈ getDependenciesFromConanInfo doc → lowercaseStr d) ∧
    mergedQueries none ["KeyA=V"] [] = Except.ok [("KeyA", "V")] ∧
    ¬ lowercaseStr "KeyA" := by
  refine ⟨?_, ?_, rfl, by decide⟩
  · intro doc k hk
    obtain ⟨kv, hkv, rfl⟩ := List.mem_map.mp hk
    obtain ⟨s, hs, _, kv0, hkv0, _, heq⟩ :=
      mem_profileContribPairs doc kv (mem_profileQueries doc kv hkv)
    have hl := lowerDoc_parseDoc doc s hs kv0 hkv0
    rw [heq]
    exact hl
  · intro doc d hd
    unfold getDependenciesFromConanInfo at hd
    obtain ⟨s, hs, hmem⟩ := List.mem_flatMap.mp hd
    by_cases hn : s.1 = "full_requires"
    · rw [if_pos hn] at hmem
      obtain ⟨kv, hkv, rfl⟩ := List.mem_map.mp hmem
      exact lowercaseStr_beforeFirstColon kv.1 (lowerDoc_parseDoc doc s hs kv hkv)
    · rw [if_neg hn] at hmem
      exact absurd hmem (List.not_mem_nil d)

/-- Witness for C9. -/
theorem parsed_keys_lowercase_witness :
    ("os" ∈ (profileQueries [("settings", [("OS", "Linux")])]).map Prod.fst ∧
      lowercaseStr "os") ∧
    ("liba/1.2@u/c" ∈ getDependenciesFromConanInfo
        [("full_requires", [("libA/1.2@u/c:abc", "")])] ∧
      lowercaseStr "liba/1.2@u/c") :=
  ⟨⟨by decide, parsed_keys_lowercase.1 [("settings", [("OS", "Linux")])] "os"
      (by decide)⟩,
   ⟨by decide, parsed_keys_lowercase.2.1
      [("full_requires", [("libA/1.2@u/c:abc", "")])] "liba/1.2@u/c"
      (by decide)⟩⟩

/-- C10: a missing or unreadable profile file is not an error:
`configparser.read` leaves the parser empty, the profile contributes no
keys, and the merged query is built solely from the explicit option and
setting overrides. -/
theorem missing_profile_overrides_only (opts setts : List String) :
    mergedQueries none opts setts = mergedQueries (some []) opts setts ∧
    profileQueries [] = [] ∧
    (∀ Q kv, mergedQueries none opts setts = Except.ok Q → kv ∈ Q →
      kv ∈ pairsOf opts ∨ kv ∈ pairsOf setts) := by
  refine ⟨rfl, rfl, ?_⟩
  intro Q kv hok hmem
  unfold mergedQueries at hok
  cases h1 : applyOverrides optErrMsg
      (profileQueries (Option.getD none [])) opts with
  | error e => rw [h1] at hok; simp at hok
  | ok qs =>
    rw [h1] at hok
    rcases mem_applyOverrides settErrMsg setts qs Q kv hok hmem with h2 | h2
    · rcases mem_applyOverrides optErrMsg opts _ qs kv h1 h2 with h3 | h3
      · have hempty : profileQueries (Option.getD none ([] : RawDoc)) = [] := rfl
        rw [hempty] at h3
        exact absurd h3 (List.not_mem_nil kv)
      · left; exact h3
    · right; exact h2

/-- Witness for C10. -/
theorem missing_profile_overrides_only_witness :
    mergedQueries none ["a=1"] ["b=2"] = Except.ok [("a", "1"), ("b", "2")] ∧
    (("a", "1") ∈ pairsOf ["a=1"] ∨ ("a", "1") ∈ pairsOf ["b=2"]) :=
  ⟨rfl,
   (missing_profile_overrides_only ["a=1"] ["b=2"]).2.2
     [("a", "1"), ("b", "2")] ("a", "1") rfl (by decide)⟩

/-- C4: an option or setting override without exactly one `=` makes
`get_full_query_from_profile` raise the parse `ValueError`, and the run
invokes no external command before that failure. -/
theorem malformed_override_aborts (pr cr cpp : String)
    (profile : Option RawDoc) (opts setts : List String) (w : ExternalWorld)
    (h : ∃ s ∈ opts ++ setts, (pySplit '=' s).length ≠ 2) :
    ∃ s1,
      installPkg pr cr cpp profile opts setts w
          = ([], Except.error (optErrMsg ++ s1))
      ∨ installPkg pr cr cpp profile opts setts w
          = ([], Except.error (settErrMsg ++ s1)) := by
  have herr : ∃ s1,
      mergedQueries profile opts setts = Except.error (optErrMsg ++ s1)
      ∨ mergedQueries profile opts setts = Except.error (settErrMsg ++ s1) := by
    by_cases hopt : ∃ s ∈ opts, (pySplit '=' s).length ≠ 2
    · obtain ⟨s1, hs1⟩ := applyOverrides_error optErrMsg opts
        (profileQueries (profile.getD [])) hopt
      refine ⟨s1, Or.inl ?_⟩
      unfold mergedQueries
      rw [hs1]
    · have hopts_ok : ∀ s ∈ opts, (pySplit '=' s).length = 2 := by
        intro s hs
        by_contra hbad
        exact hopt ⟨s, hs, hbad⟩
      have hsett : ∃ s ∈ setts, (pySplit '=' s).length ≠ 2 := by
        obtain ⟨s, hs, hbad⟩ := h
        rcases List.mem_append.mp hs with hs | hs
        · exact absurd (hopts_ok s hs) hbad
        · exact ⟨s, hs, hbad⟩
      obtain ⟨s1, hs1⟩ := applyOverrides_error settErrMsg setts
        (applyAll (profileQueries (profile.getD [])) (pairsOf opts)) hsett
      refine ⟨s1, Or.inr ?_⟩
      unfold mergedQueries
      rw [applyOverrides_ok optErrMsg opts _ hopts_ok]
      exact hs1
  obtain ⟨s1, herr⟩ := herr
  refine ⟨s1, ?_⟩
  rcases herr with herr | herr
  · left
    unfold installPkg getFullQueryFromProfile
    rw [herr]
  · right
    unfold installPkg getFullQueryFromProfile
    rw [herr]

/-- Witness for C4. -/
theorem malformed_override_aborts_witness :
    ∃ s1,
      installPkg "app/1.0@u/c" "rem" "prof" none ["oops"] [] ⟨⟨[]⟩, []⟩
          = ([], Except.error (optErrMsg ++ s1))
      ∨ installPkg "app/1.0@u/c" "rem" "prof" none ["oops"] [] ⟨⟨[]⟩, []⟩
          = ([], Except.error (settErrMsg ++ s1)) :=
  malformed_override_aborts "app/1.0@u/c" "rem" "prof" none ["oops"] []
    ⟨⟨[]⟩, []⟩ (by decide)

/-- C2: with well-formed overrides, the merged query maps every key to the
value of the highest-precedence source containing it (explicit settings
over explicit options over the profile, the last occurrence winning inside
one override list), and its keys appear in first-seen insertion order:
profile keys in profile order first, then new override keys in the order
supplied, a later write to an existing key not changing its position. -/
theorem merged_query_precedence_and_order (profile : Option RawDoc)
    (opts setts : List String)
    (ho : ∀ s ∈ opts, (pySplit '=' s).length = 2)
    (hs : ∀ s ∈ setts, (pySplit '=' s).length = 2) :
    ∃ Q, mergedQueries profile opts setts = Except.ok Q ∧
      getFullQueryFromProfile profile opts setts = Except.ok (joinQueries Q) ∧
      (∀ k, lookupA Q k = specPrecedence (profileQueries (profile.getD []))
        (pairsOf opts) (pairsOf setts) k) ∧
      Q.map Prod.fst = firstSeenKeys
        ((profileQueries (profile.getD [])).map Prod.fst
          ++ (pairsOf opts).map Prod.fst
          ++ (pairsOf setts).map Prod.fst) := by
  have hok : mergedQueries profile opts setts
      = Except.ok (applyAll (applyAll (profileQueries (profile.getD []))
          (pairsOf opts)) (pairsOf setts)) := by
    unfold mergedQueries
    rw [applyOverrides_ok optErrMsg opts _ ho]
    exact applyOverrides_ok settErrMsg setts _ hs
  refine ⟨_, hok, ?_, ?_, ?_⟩
  · unfold getFullQueryFromProfile
    rw [hok]
  · intro k
    rw [lookupA_applyAll, lookupA_applyAll]
    unfold specPrecedence
    cases lastAssoc (pairsOf setts) k with
    | some v => rfl
    | none =>
      cases lastAssoc (pairsOf opts) k with
      | some v => rfl
      | none => rfl
  · have hnd : ((profileQueries (profile.getD [])).map Prod.fst).Nodup := by
      unfold profileQueries
      rw [keys_applyAll]
      exact foldl_stepKeys_nodup _ [] List.nodup_nil
    rw [keys_applyAll, keys_applyAll]
    unfold firstSeenKeys
    rw [List.foldl_append, List.foldl_append,
      foldl_stepKeys_of_nodup _ [] hnd (fun k _ => List.not_mem_nil k),
      List.nil_append]

/-- Witness for C2: a profile with two settings, two option overrides (one
overriding a profile key), and one setting override overriding the same
key again. -/
theorem merged_query_precedence_and_order_witness :
    (∀ s ∈ ["os=Mac", "opt1=1"], (pySplit '=' s).length = 2) ∧
    (∃ Q, mergedQueries (some [("settings", [("os", "Linux"), ("arch", "x86")])])
        ["os=Mac", "opt1=1"] ["os=Win"] = Except.ok Q ∧
      getFullQueryFromProfile
          (some [("settings", [("os", "Linux"), ("arch", "x86")])])
          ["os=Mac", "opt1=1"] ["os=Win"] = Except.ok (joinQueries Q) ∧
      (∀ k, lookupA Q k = specPrecedence
        (profileQueries ((some [("settings",
          [("os", "Linux"), ("arch", "x86")])]).getD []))
        (pairsOf ["os=Mac", "opt1=1"]) (pairsOf ["os=Win"]) k) ∧
      Q.map Prod.fst = firstSeenKeys
        ((profileQueries ((some [("settings",
            [("os", "Linux"), ("arch", "x86")])]).getD [])).map Prod.fst
          ++ (pairsOf ["os=Mac", "opt1=1"]).map Prod.fst
          ++ (pairsOf ["os=Win"]).map Prod.fst)) :=
  ⟨by decide,
   merged_query_precedence_and_order
     (some [("settings", [("os", "Linux"), ("arch", "x86")])])
     ["os=Mac", "opt1=1"] ["os=Win"] (by decide) (by decide)⟩

end ConanInstall
